import Mathlib

/-!
Shallow embedding of the MIPS interpreter core of this repository
(class MipsCore in the single Python source file), together with
theorems settling the frozen claims about it.

Modelling conventions, faithful to Python integer semantics:
* Python ints are unbounded; register values are natural numbers
  (the code only ever stores values masked with 0xFFFFFFFF) and the
  program counter is an integer, since the code never masks it and a
  taken BNE branch can drive it negative.
* Python mod on ints is Euclidean (result has the sign of the
  modulus), which is exactly Int.emod, the `%` of Lean Int.
* Bitwise AND with a mask 2^k - 1 on a Python int equals mod 2^k,
  also for negative operands (two-s complement); right shift by k is
  division by 2^k; left shift by k is multiplication by 2^k.
* `pc & 0xF0000000` keeps two-s-complement bits 28..31, which equals
  `pc % 2^32 - pc % 2^28`; OR-ing with the disjoint low 28 bits
  `target << 2` is addition.
* The 8 MiB bytearray is a function from addresses to byte values;
  the struct.unpack big-endian read of 4 bytes is composed from the
  four byte cells.
-/

/-- The engine state of class MipsCore: 32 registers (list of 32
Python ints, modelled as a function, only indices 0..31 are ever
used), program counter, 8 MiB memory image, running and paused
flags, and cycle counter.  The decoded-opcode cache field of the
source is never read and is omitted. -/
structure MipsCore where
  regs : Nat → Nat
  pc : Int
  memory : Nat → Nat
  running : Bool
  paused : Bool
  cycles : Nat

/-- Memory image capacity: 8 * 1024 * 1024 bytes. -/
def memSize : Nat := 0x800000

/-- The N64 boot address 0x80000400 used by __init__ and reset. -/
def resetVec : Int := 0x80000400

/-- The state built by MipsCore.__init__. -/
def initCore : MipsCore :=
  { regs := fun _ => 0
    pc := resetVec
    memory := fun _ => 0
    running := false
    paused := false
    cycles := 0 }

/-- MipsCore.reset: zero the registers, restore the PC to the reset
vector, zero the cycle counter, clear the running flag.  The paused
flag is not touched by the source.  Total: the Python body cannot
raise. -/
def reset (s : MipsCore) : MipsCore :=
  { s with
    regs := fun _ => 0
    pc := resetVec
    cycles := 0
    running := false }

/-- Python list assignment regs[i] = v. -/
def updReg (regs : Nat → Nat) (i v : Nat) : Nat → Nat :=
  fun j => if j = i then v else regs j

/-- ctypes.c_short(v).value: truncate to 16 bits and interpret as a
signed (two-s complement) 16-bit value. -/
def c_short (v : Nat) : Int :=
  if v % 0x10000 < 0x8000 then (v % 0x10000 : Int)
  else (v % 0x10000 : Int) - 0x10000

/-- struct.unpack of 4 bytes big-endian starting at address p
(the slice memory[p:p+4]). -/
def readWord (mem : Nat → Nat) (p : Nat) : Nat :=
  mem p * 0x1000000 + mem (p + 1) * 0x10000 + mem (p + 2) * 0x100 + mem (p + 3)

/-- Virtual-to-physical translation in step: pc & 0x1FFFFFFF, the
Python AND with 2^29 - 1, i.e. mod 2^29 (non-negative). -/
def physOf (pc : Int) : Nat := (pc % 0x20000000).toNat

/-- The fetch-bounds correction of step: if the translated address
plus 4 runs past the memory image, the PC is reset to the reset
vector before fetching (and the physical address recomputed). -/
def fetchPC (pc : Int) : Int :=
  if memSize < physOf pc + 4 then resetVec else pc

/-- The guarded instruction read of step: the 4-byte big-endian read
succeeds when the slice memory[p:p+4] has 4 bytes, i.e. when
p + 4 <= len(memory); otherwise struct.unpack raises and the except
clause substitutes 0 (NOP). -/
def fetchInstr (mem : Nat → Nat) (p : Nat) : Nat :=
  if p + 4 ≤ memSize then readWord mem p else 0

/-- MipsCore._op_add: rd = (rs + rt) & 0xFFFFFFFF.
Fields: rs = (instr >> 21) & 0x1F, rt = (instr >> 16) & 0x1F,
rd = (instr >> 11) & 0x1F. -/
def _op_add (instr : Nat) (s : MipsCore) : MipsCore :=
  let rs := instr / 0x200000 % 32
  let rt := instr / 0x10000 % 32
  let rd := instr / 0x800 % 32
  { s with regs := updReg s.regs rd ((s.regs rs + s.regs rt) % 0x100000000) }

/-- MipsCore._op_addi: rt = (rs + sign_extend16(imm)) & 0xFFFFFFFF,
where the sum is a Python int (possibly negative) and the AND with
0xFFFFFFFF is Euclidean mod 2^32. -/
def _op_addi (instr : Nat) (s : MipsCore) : MipsCore :=
  let rs := instr / 0x200000 % 32
  let rt := instr / 0x10000 % 32
  let imm := c_short (instr % 0x10000)
  { s with regs := updReg s.regs rt (((s.regs rs : Int) + imm) % 0x100000000).toNat }

/-- MipsCore._op_lui: rt = (imm << 16) & 0xFFFFFFFF. -/
def _op_lui (instr : Nat) (s : MipsCore) : MipsCore :=
  let rt := instr / 0x10000 % 32
  let imm := instr % 0x10000
  { s with regs := updReg s.regs rt (imm * 0x10000 % 0x100000000) }

/-- MipsCore._op_sw: mock implementation, no state change. -/
def _op_sw (_instr : Nat) (s : MipsCore) : MipsCore := s

/-- MipsCore._op_lw: mock implementation, no state change. -/
def _op_lw (_instr : Nat) (s : MipsCore) : MipsCore := s

/-- MipsCore._op_bne: if regs[rs] != regs[rt] then
pc += (offset << 2) - 4, with offset the sign-extended low 16 bits.
A Python left shift of a negative int by 2 is multiplication by 4. -/
def _op_bne (instr : Nat) (s : MipsCore) : MipsCore :=
  let rs := instr / 0x200000 % 32
  let rt := instr / 0x10000 % 32
  let offset := c_short (instr % 0x10000)
  if s.regs rs ≠ s.regs rt then { s with pc := s.pc + (offset * 4 - 4) } else s

/-- MipsCore._op_j: pc = (pc & 0xF0000000) | (target << 2) with
target = instr & 0x03FFFFFF.  The AND keeps two-s-complement bits
28..31 of pc, i.e. pc % 2^32 - pc % 2^28, and the OR with the
disjoint low 28 bits is addition. -/
def _op_j (instr : Nat) (s : MipsCore) : MipsCore :=
  let target := instr % 0x4000000
  { s with pc := s.pc % 0x100000000 - s.pc % 0x10000000 + (target : Int) * 4 }

/-- The decode-and-dispatch chain of MipsCore.step, after the PC has
been advanced: opcode = (instr >> 26) & 0x3F; R-type funct 0x20 is
ADD, funct 0x00 is SLL-as-NOP, every unlisted opcode or funct falls
through with no state change. -/
def execute (instr : Nat) (s : MipsCore) : MipsCore :=
  let opcode := instr / 0x4000000 % 64
  if opcode = 0x00 then
    (if instr % 64 = 0x20 then _op_add instr s else s)
  else if opcode = 0x08 then _op_addi instr s
  else if opcode = 0x0F then _op_lui instr s
  else if opcode = 0x2B then _op_sw instr s
  else if opcode = 0x23 then _op_lw instr s
  else if opcode = 0x05 then _op_bne instr s
  else if opcode = 0x02 then _op_j instr s
  else s

/-- MipsCore.step: immediate return while paused (the sleep has no
state effect); otherwise translate the PC with the bounds
correction, read the instruction word, advance the PC by 4, dispatch
on the opcode, and increment the cycle counter. -/
def step (s : MipsCore) : MipsCore :=
  if s.paused then s
  else
    let pc1 := fetchPC s.pc
    let instr := fetchInstr s.memory (physOf pc1)
    let s1 := { s with pc := pc1 + 4 }
    let s2 := execute instr s1
    { s2 with cycles := s2.cycles + 1 }

/-- MipsCore.load_binary with the file contents given as the list of
its bytes (the file read itself is outside the model; its failure
path mutates nothing).  The source first copies
min(len(data), len(memory)) bytes into the image, then unpacks the
big-endian entry point from data[0x8:0xC]; when the input has fewer
than 12 bytes that slice is shorter than 4 bytes, struct.unpack
raises, and the except clause returns False - after the copy already
happened.  On success the PC is set to the entry point and True is
returned. -/
def load_binary (data : List Nat) (s : MipsCore) : Bool × MipsCore :=
  let load_size := min data.length memSize
  let mem' : Nat → Nat := fun i => if i < load_size then data.getD i 0 else s.memory i
  if 12 ≤ data.length then
    (true, { s with memory := mem',
                    pc := (data.getD 8 0 * 0x1000000 + data.getD 9 0 * 0x10000 +
                           data.getD 10 0 * 0x100 + data.getD 11 0 : Nat) })
  else
    (false, { s with memory := mem' })

/-! ### Helper lemmas -/

theorem fetchPC_of_inbounds (pc : Int) (h : physOf pc + 4 ≤ memSize) :
    fetchPC pc = pc := by
  simp [fetchPC, Nat.not_lt.mpr h]

theorem fetchInstr_of_inbounds (mem : Nat → Nat) (p : Nat) (h : p + 4 ≤ memSize) :
    fetchInstr mem p = readWord mem p := by
  simp [fetchInstr, h]

theorem step_of_inbounds (s : MipsCore) (hp : s.paused = false)
    (hb : physOf s.pc + 4 ≤ memSize) :
    step s =
      { execute (readWord s.memory (physOf s.pc)) { s with pc := s.pc + 4 } with
        cycles := (execute (readWord s.memory (physOf s.pc)) { s with pc := s.pc + 4 }).cycles + 1 } := by
  simp [step, hp, fetchPC_of_inbounds _ hb, fetchInstr_of_inbounds _ _ hb]

theorem c_short_lb (v : Nat) : -32768 ≤ c_short v := by
  unfold c_short; split <;> omega

theorem c_short_ub (v : Nat) : c_short v ≤ 32767 := by
  unfold c_short; split <;> omega

/-- Field decoding of an instruction word composed from an opcode and
the three 5-bit register fields plus a 16-bit immediate. -/
theorem decode_fields (op rs rt imm : Nat) (hop : op < 64) (hrs : rs < 32)
    (hrt : rt < 32) (himm : imm < 0x10000) :
    (op * 0x4000000 + rs * 0x200000 + rt * 0x10000 + imm) / 0x4000000 % 64 = op ∧
    (op * 0x4000000 + rs * 0x200000 + rt * 0x10000 + imm) / 0x200000 % 32 = rs ∧
    (op * 0x4000000 + rs * 0x200000 + rt * 0x10000 + imm) / 0x10000 % 32 = rt ∧
    (op * 0x4000000 + rs * 0x200000 + rt * 0x10000 + imm) % 0x10000 = imm := by
  omega

/-! ### Claims -/

/-- Claim C5: reset is total and unconditional: whatever state the
prior steps and loads produced, after reset every one of the 32
registers is 0, the PC is 0x80000400, the cycle counter is 0, and
the running flag is false.  reset is a total Lean function, so it
never fails. -/
theorem c5_reset_total (s : MipsCore) :
    (∀ i, (reset s).regs i = 0) ∧ (reset s).pc = 0x80000400 ∧
    (reset s).cycles = 0 ∧ (reset s).running = false := by
  refine ⟨fun i => rfl, rfl, rfl, rfl⟩

/-- Claim C9: the fetch path is self-healing: for every PC value the
bounds-corrected physical address is in bounds for a 4-byte read, so
the guarded instruction read always takes the successful branch and
the except-clause NOP substitution is unreachable; and whenever the
original translation was out of bounds the PC was first reset to
0x80000400. -/
theorem c9_fetch_selfhealing (pc : Int) (mem : Nat → Nat) :
    physOf (fetchPC pc) + 4 ≤ memSize ∧
    fetchInstr mem (physOf (fetchPC pc)) = readWord mem (physOf (fetchPC pc)) ∧
    (memSize < physOf pc + 4 → fetchPC pc = resetVec) := by
  have hin : physOf (fetchPC pc) + 4 ≤ memSize := by
    unfold fetchPC
    split
    · decide
    · omega
  exact ⟨hin, fetchInstr_of_inbounds _ _ hin, fun h => by simp [fetchPC, h]⟩

/-- Claim C9 witness at a concrete out-of-bounds PC. -/
theorem c9_fetch_selfhealing_witness :
    physOf (fetchPC 0x80FFFFF0) + 4 ≤ memSize ∧
    fetchInstr (fun _ => 0) (physOf (fetchPC 0x80FFFFF0)) =
      readWord (fun _ => 0) (physOf (fetchPC 0x80FFFFF0)) ∧
    (memSize < physOf (0x80FFFFF0 : Int) + 4 → fetchPC 0x80FFFFF0 = resetVec) :=
  c9_fetch_selfhealing 0x80FFFFF0 (fun _ => 0)

/-- Every opcode handler and the fall-through leave the cycle
counter, the memory image, and the flags untouched. -/
theorem execute_frame (instr : Nat) (s : MipsCore) :
    (execute instr s).cycles = s.cycles ∧
    (execute instr s).memory = s.memory ∧
    (execute instr s).running = s.running ∧
    (execute instr s).paused = s.paused := by
  simp only [execute, _op_add, _op_addi, _op_lui, _op_sw, _op_lw, _op_bne, _op_j]
  split_ifs <;> exact ⟨rfl, rfl, rfl, rfl⟩

/-- Claim C8: a step while not paused increments the cycle counter by
exactly 1 on every path (every opcode handler and the fall-through
leave cycles untouched and the tail adds 1); a step while paused
returns the state unchanged: no cycle, no register, PC, or memory
change. -/
theorem c8_cycles (s : MipsCore) :
    (s.paused = false → (step s).cycles = s.cycles + 1) ∧
    (s.paused = true → step s = s) := by
  constructor
  · intro hp
    unfold step
    rw [hp]
    simp only [Bool.false_eq_true, if_false]
    rw [(execute_frame _ _).1]
  · intro hp
    unfold step
    rw [hp]
    rfl

/-- Claim C8 witness: stepping the freshly constructed core (not
paused) consumes one cycle; the same core with the paused flag set is
returned unchanged by step. -/
theorem c8_cycles_witness :
    (step initCore).cycles = initCore.cycles + 1 ∧
    step { initCore with paused := true } = { initCore with paused := true } :=
  ⟨(c8_cycles initCore).1 rfl, (c8_cycles { initCore with paused := true }).2 rfl⟩

/-- Claim C6: register arithmetic is exact unsigned 32-bit with
two-s-complement immediates.  ADD stores (rs + rt) mod 2^32 (and is
total, so it never traps); ADDI with immediate 0xFFFF sign-extends
it to -1 and stores (rs - 1) mod 2^32; LUI stores the immediate in
bits 31..16 with bits 15..0 zero, whatever the destination register
held before. -/
theorem c6_arithmetic (s : MipsCore) (rs rt rd imm : Nat)
    (hrs : rs < 32) (hrt : rt < 32) (hrd : rd < 32) (himm : imm < 0x10000) :
    (_op_add (rs * 0x200000 + rt * 0x10000 + rd * 0x800 + 0x20) s).regs rd
        = (s.regs rs + s.regs rt) % 0x100000000 ∧
    (_op_addi (0x08 * 0x4000000 + rs * 0x200000 + rt * 0x10000 + 0xFFFF) s).regs rt
        = (((s.regs rs : Int) - 1) % 0x100000000).toNat ∧
    (_op_lui (0x0F * 0x4000000 + rt * 0x10000 + imm) s).regs rt = imm * 0x10000 ∧
    (_op_lui (0x0F * 0x4000000 + rt * 0x10000 + imm) s).regs rt % 0x10000 = 0 ∧
    (_op_lui (0x0F * 0x4000000 + rt * 0x10000 + imm) s).regs rt / 0x10000 = imm := by
  have ha1 : (rs * 0x200000 + rt * 0x10000 + rd * 0x800 + 0x20) / 0x200000 % 32 = rs := by omega
  have ha2 : (rs * 0x200000 + rt * 0x10000 + rd * 0x800 + 0x20) / 0x10000 % 32 = rt := by omega
  have ha3 : (rs * 0x200000 + rt * 0x10000 + rd * 0x800 + 0x20) / 0x800 % 32 = rd := by omega
  have hb1 : (0x08 * 0x4000000 + rs * 0x200000 + rt * 0x10000 + 0xFFFF) / 0x200000 % 32 = rs := by
    omega
  have hb2 : (0x08 * 0x4000000 + rs * 0x200000 + rt * 0x10000 + 0xFFFF) / 0x10000 % 32 = rt := by
    omega
  have hb3 : (0x08 * 0x4000000 + rs * 0x200000 + rt * 0x10000 + 0xFFFF) % 0x10000 = 0xFFFF := by
    omega
  have hc1 : (0x0F * 0x4000000 + rt * 0x10000 + imm) / 0x10000 % 32 = rt := by omega
  have hc2 : (0x0F * 0x4000000 + rt * 0x10000 + imm) % 0x10000 = imm := by omega
  have hlui : imm * 0x10000 % 0x100000000 = imm * 0x10000 := by omega
  have hcs : c_short 0xFFFF = -1 := by decide
  refine ⟨?_, ?_, ?_, ?_, ?_⟩
  · simp [_op_add, updReg, ha1, ha2, ha3]
  · simp [_op_addi, updReg, hb1, hb2, hb3, hcs]
    omega
  · simp [_op_lui, updReg, hc1, hc2, hlui]
  · simp [_op_lui, updReg, hc1, hc2, hlui]
  · simp [_op_lui, updReg, hc1, hc2, hlui]

/-- Claim C6 witness at rs = 1, rt = 2, rd = 3, imm = 0xABCD on the
fresh core. -/
theorem c6_arithmetic_witness :
    (_op_add (1 * 0x200000 + 2 * 0x10000 + 3 * 0x800 + 0x20) initCore).regs 3
        = (initCore.regs 1 + initCore.regs 2) % 0x100000000 ∧
    (_op_addi (0x08 * 0x4000000 + 1 * 0x200000 + 2 * 0x10000 + 0xFFFF) initCore).regs 2
        = (((initCore.regs 1 : Int) - 1) % 0x100000000).toNat ∧
    (_op_lui (0x0F * 0x4000000 + 2 * 0x10000 + 0xABCD) initCore).regs 2 = 0xABCD * 0x10000 ∧
    (_op_lui (0x0F * 0x4000000 + 2 * 0x10000 + 0xABCD) initCore).regs 2 % 0x10000 = 0 ∧
    (_op_lui (0x0F * 0x4000000 + 2 * 0x10000 + 0xABCD) initCore).regs 2 / 0x10000 = 0xABCD :=
  c6_arithmetic initCore 1 2 3 0xABCD (by decide) (by decide) (by decide) (by decide)

/-- Claim C7: when a step fetches a J instruction word (opcode 0x02)
in bounds, the resulting PC is the top 4 bits of the pre-step PC
with the 26-bit target field, shifted left by 2, in the low 28 bits.
With 0 <= pc < 2^32, the top-4-bits value is pc - pc % 2^28; the +4
advance before dispatch cannot change those bits because an
in-bounds translated address keeps bits 23..28 of the PC clear. -/
theorem c7_jump (s : MipsCore) (target : Nat)
    (hp : s.paused = false)
    (hpc0 : 0 ≤ s.pc) (hpc1 : s.pc < 0x100000000)
    (hb : physOf s.pc + 4 ≤ memSize)
    (ht : target < 0x4000000)
    (hw : readWord s.memory (physOf s.pc) = 0x02 * 0x4000000 + target) :
    (step s).pc = (s.pc - s.pc % 0x10000000) + (target : Int) * 4 := by
  rw [step_of_inbounds s hp hb, hw]
  have hop : (0x02 * 0x4000000 + target) / 0x4000000 % 64 = 2 := by omega
  have htar : (0x02 * 0x4000000 + target) % 0x4000000 = target := by omega
  simp only [execute, hop, _op_j, htar]
  norm_num
  have hphys : s.pc % 0x20000000 + 4 ≤ 0x800000 := by
    unfold physOf memSize at hb
    omega
  omega

/-- The concrete J test state: memory holds the J word with target
field 0x00100000 at the physical address of the reset-vector PC. -/
def jState : MipsCore :=
  { initCore with
    running := true
    memory := fun i =>
      if i = 0x400 then 0x08 else if i = 0x401 then 0x10 else 0 }

/-- Claim C7 witness: the spec example, target field 0x00100000 with
PC high nibble 0x8, lands on 0x80400000. -/
theorem c7_jump_witness : (step jState).pc = 0x80400000 := by
  have h := c7_jump jState 0x100000 rfl (by decide) (by decide) (by decide)
    (by decide) (by decide)
  rw [h]
  decide

/-- Claim C10: SW (opcode 0x2B) and LW (opcode 0x23) are inert
stubs: a step fetching either word in bounds leaves every byte of
memory and every register unchanged; the only changes are the PC
advancing by 4 and the cycle counter incrementing by 1 (the flags
are untouched too). -/
theorem c10_sw_lw_inert (s : MipsCore) (w : Nat)
    (hp : s.paused = false)
    (hb : physOf s.pc + 4 ≤ memSize)
    (hw : readWord s.memory (physOf s.pc) = w)
    (hop : w / 0x4000000 % 64 = 0x2B ∨ w / 0x4000000 % 64 = 0x23) :
    (step s).memory = s.memory ∧ (step s).regs = s.regs ∧
    (step s).pc = s.pc + 4 ∧ (step s).cycles = s.cycles + 1 ∧
    (step s).running = s.running ∧ (step s).paused = s.paused := by
  rw [step_of_inbounds s hp hb, hw]
  rcases hop with h | h <;>
    · simp only [execute, h, _op_sw, _op_lw]
      norm_num

/-- The concrete SW test state: the SW word 0xAC000000 sits at the
physical address of the reset-vector PC. -/
def swState : MipsCore :=
  { initCore with
    running := true
    memory := fun i => if i = 0x400 then 0xAC else 0 }

/-- Claim C10 witness on the concrete SW state. -/
theorem c10_sw_lw_inert_witness :
    (step swState).memory = swState.memory ∧ (step swState).regs = swState.regs ∧
    (step swState).pc = swState.pc + 4 ∧ (step swState).cycles = swState.cycles + 1 ∧
    (step swState).running = swState.running ∧ (step swState).paused = swState.paused :=
  c10_sw_lw_inert swState 0xAC000000 rfl (by decide) (by decide) (Or.inl (by decide))

/-- The concrete BNE test state for the spec example rs = 1, rt = 2,
offset 0x0004: the word 0x14220004 (opcode 0x05, rs 1, rt 2,
offset 4) sits at the physical address of the reset-vector PC, and
registers 1 and 2 hold different values. -/
def bneState : MipsCore :=
  { initCore with
    running := true
    regs := fun i => if i = 1 then 1 else if i = 2 then 2 else 0
    memory := fun i =>
      if i = 0x400 then 0x14 else if i = 0x401 then 0x22 else
      if i = 0x403 then 0x04 else 0 }

/-- Claim C1 counterexample: on the spec example itself (rs = 1,
rt = 2, offset 4, register values unequal) the post-step PC is
PC_before_fetch + 16 = 0x80000410, not
PC_before_fetch + 4 + 4 * 4 = 0x80000414 as the claim states: the
source adds (offset << 2) - 4 to the already advanced PC, so the -4
cancels the +4 advance exactly. -/
theorem c1_bne_counterexample :
    bneState.regs 1 ≠ bneState.regs 2 ∧
    bneState.pc = 0x80000400 ∧
    (step bneState).pc = 0x80000410 ∧
    (step bneState).pc ≠ bneState.pc + 4 + 4 * c_short 4 := by
  refine ⟨by decide, by decide, by decide, by decide⟩

/-- Claim C1 amended: a step fetching a BNE word (opcode 0x05) in
bounds sets the PC to PC_before_fetch + 4 * sign_extend16(offset)
when regs[rs] != regs[rt] (one instruction slot short of the
conventional target, because the -4 in the handler cancels the
pre-dispatch +4), and to PC_before_fetch + 4 on the equal
(fallthrough) case. -/
theorem c1_bne_amended (s : MipsCore) (rs rt offset : Nat)
    (hp : s.paused = false)
    (hb : physOf s.pc + 4 ≤ memSize)
    (hrs : rs < 32) (hrt : rt < 32) (hoff : offset < 0x10000)
    (hw : readWord s.memory (physOf s.pc) =
      0x05 * 0x4000000 + rs * 0x200000 + rt * 0x10000 + offset) :
    (s.regs rs ≠ s.regs rt → (step s).pc = s.pc + 4 * c_short offset) ∧
    (s.regs rs = s.regs rt → (step s).pc = s.pc + 4) := by
  rw [step_of_inbounds s hp hb, hw]
  obtain ⟨h1, h2, h3, h4⟩ := decode_fields 0x05 rs rt offset (by omega) hrs hrt hoff
  simp only [execute, h1, _op_bne, h2, h3, h4]
  norm_num
  constructor
  · intro hne
    simp [hne]
    omega
  · intro heq
    simp [heq]

/-- Claim C1 witness: the amended taken-branch equation at the
concrete BNE state, giving PC 0x80000400 + 16. -/
theorem c1_bne_amended_witness : (step bneState).pc = bneState.pc + 4 * c_short 4 := by
  have h := c1_bne_amended bneState 1 2 4 rfl (by decide) (by decide) (by decide)
    (by decide) (by decide)
  exact h.1 (by decide)

/-- The instruction words whose handler writes register 0: an R-type
ADD with destination field rd = 0, or an ADDI or LUI with
destination field rt = 0.  No other recognized or unrecognized word
writes any register. -/
def writesReg0 (instr : Nat) : Bool :=
  let opcode := instr / 0x4000000 % 64
  (opcode == 0 && instr % 64 == 0x20 && instr / 0x800 % 32 == 0) ||
  ((opcode == 8 || opcode == 15) && instr / 0x10000 % 32 == 0)

/-- A register write to a nonzero index leaves register 0 alone. -/
theorem updReg_zero (regs : Nat → Nat) (i v : Nat) (h : i ≠ 0) :
    updReg regs i v 0 = regs 0 := by
  simp [updReg, Ne.symm h]

/-- When the dispatched word does not target register 0, no handler
changes register 0. -/
theorem execute_keeps_reg0 (instr : Nat) (s : MipsCore)
    (h0 : s.regs 0 = 0) (hi : writesReg0 instr = false) :
    (execute instr s).regs 0 = 0 := by
  simp only [execute, _op_add, _op_addi, _op_lui, _op_sw, _op_lw, _op_bne, _op_j]
  split_ifs
  all_goals first
    | exact h0
    | (refine (updReg_zero s.regs _ _ ?_).trans h0
       intro hz
       exact absurd hi (by simp [writesReg0, hz, *]))

/-- The concrete ADD-to-register-0 state: register 1 holds 5,
register 0 holds 0, and the word 0x00200020 (R-type ADD with rs = 1,
rt = 0, rd = 0) sits at the physical address of the reset-vector
PC. -/
def addZeroState : MipsCore :=
  { initCore with
    running := true
    regs := fun i => if i = 1 then 5 else 0
    memory := fun i =>
      if i = 0x401 then 0x20 else if i = 0x403 then 0x20 else 0 }

/-- Claim C3 counterexample: the source never special-cases register
index 0, so an ADD whose destination field is 0 overwrites it: from
a state with regs[0] = 0 and regs[1] = 5, one step of the ADD word
with rd = 0 leaves register 0 holding 5, not 0. -/
theorem c3_zero_counterexample :
    addZeroState.regs 0 = 0 ∧
    (step addZeroState).regs 0 = 5 ∧
    (step addZeroState).regs 0 ≠ 0 := by
  refine ⟨by decide, by decide, by decide⟩

/-- Claim C3 amended: register 0 keeps reading 0 across a step
whenever the fetched instruction word does not have register 0 as
its destination field (ADD with rd = 0, or ADDI/LUI with rt = 0);
the source does not discard such writes, so for those words the
invariant fails (see the counterexample). -/
theorem c3_zero_amended (s : MipsCore) (h0 : s.regs 0 = 0)
    (hi : writesReg0 (fetchInstr s.memory (physOf (fetchPC s.pc))) = false) :
    (step s).regs 0 = 0 := by
  by_cases hp : s.paused
  · simp [step, hp]
    exact h0
  · simp only [step, hp, if_false]
    exact execute_keeps_reg0 _ _ h0 hi

/-- Claim C3 witness: an ADD with destination register 3 (word
0x00201820, rs = 1, rt = 0, rd = 3) leaves register 0 at 0. -/
def addR3State : MipsCore :=
  { initCore with
    running := true
    regs := fun i => if i = 1 then 5 else 0
    memory := fun i =>
      if i = 0x401 then 0x20 else if i = 0x402 then 0x18 else
      if i = 0x403 then 0x20 else 0 }

/-- Claim C3 amended witness on the concrete ADD-to-register-3
state. -/
theorem c3_zero_amended_witness : (step addR3State).regs 0 = 0 :=
  c3_zero_amended addR3State (by decide) (by decide)

/-- The concrete runaway-BNE state: PC 0 (in range, fetch in
bounds), registers 1 and 2 unequal, and the word 0x14228000 (BNE
rs = 1, rt = 2, offset 0x8000 = -32768) at physical address 0. -/
def bneNegState : MipsCore :=
  { initCore with
    running := true
    pc := 0
    regs := fun i => if i = 1 then 1 else if i = 2 then 2 else 0
    memory := fun i =>
      if i = 0 then 0x14 else if i = 1 then 0x22 else
      if i = 2 then 0x80 else 0 }

/-- Claim C4 counterexample: from the in-range PC 0, one step
fetching a taken BNE with offset -32768 drives the PC to
0 + 4 + (-32768 * 4 - 4) = -131072, below 0: the source never
reduces the PC modulo 2^32, so the unsigned-32-bit invariant fails
at its lower end. -/
theorem c4_pc_counterexample :
    (0 ≤ bneNegState.pc ∧ bneNegState.pc < 0x100000000) ∧
    (step bneNegState).pc = -131072 ∧ (step bneNegState).pc < 0 := by
  refine ⟨by decide, by decide, by decide⟩

/-- Every dispatch leaves the PC unchanged, moves it by the BNE
displacement, or rebuilds it from its top 4 bits and the jump
target. -/
theorem execute_pc_cases (instr : Nat) (s : MipsCore) :
    (execute instr s).pc = s.pc ∨
    (execute instr s).pc = s.pc + (c_short (instr % 0x10000) * 4 - 4) ∨
    (execute instr s).pc =
      s.pc % 0x100000000 - s.pc % 0x10000000 + (instr % 0x4000000 : Nat) * 4 := by
  simp only [execute, _op_add, _op_addi, _op_lui, _op_sw, _op_lw, _op_bne, _op_j]
  split_ifs <;> simp

/-- Claim C4 amended: the upper bound does hold: from any state
whose PC is below 2^32 (negative included), one step keeps the PC
below 2^32 — the bounds-corrected fetch PC has bits 23..28 clear, so
the +4 advance and a taken-BNE displacement of at most 4 * 32767
stay under 2^32, and a jump rebuilds the PC below 2^32 outright.
The lower bound 0 <= PC is the part the code violates (see the
counterexample). -/
theorem c4_pc_upper (s : MipsCore) (h : s.pc < 0x100000000) :
    (step s).pc < 0x100000000 := by
  unfold step
  split
  · exact h
  · show (execute (fetchInstr s.memory (physOf (fetchPC s.pc)))
      { s with pc := fetchPC s.pc + 4 }).pc < 0x100000000
    have hkey : fetchPC s.pc < 0x100000000 ∧ fetchPC s.pc % 0x20000000 + 4 ≤ 0x800000 := by
      unfold fetchPC physOf memSize
      split
      · refine ⟨by decide, by decide⟩
      · next hcond => omega
    rcases execute_pc_cases (fetchInstr s.memory (physOf (fetchPC s.pc)))
      { s with pc := fetchPC s.pc + 4 } with he | he | he <;>
      rw [he] <;> dsimp only
    · omega
    · have h1 := c_short_ub (fetchInstr s.memory (physOf (fetchPC s.pc)) % 0x10000)
      omega
    · have h2 : fetchInstr s.memory (physOf (fetchPC s.pc)) % 0x4000000 < 0x4000000 :=
        Nat.mod_lt _ (by decide)
      omega

/-- Claim C4 witness: the amended upper bound at the freshly
constructed core. -/
theorem c4_pc_upper_witness : (step initCore).pc < 0x100000000 :=
  c4_pc_upper initCore (by decide)

/-- Claim C2 counterexample: load_binary on the 4-byte input
[1, 2, 3, 4] from the fresh core reports the load failure (returns
False) and keeps the PC, but the failure is not atomic: byte 0 of
the memory image, previously 0, now holds 1, because the source
copies the input into memory before unpacking the entry-point field
that makes it fail. -/
theorem c2_load_counterexample :
    (load_binary [1, 2, 3, 4] initCore).1 = false ∧
    initCore.memory 0 = 0 ∧
    (load_binary [1, 2, 3, 4] initCore).2.memory 0 = 1 ∧
    (load_binary [1, 2, 3, 4] initCore).2.pc = initCore.pc := by
  refine ⟨by decide, by decide, by decide, by decide⟩

/-- Claim C2 amended: for every input shorter than 12 bytes,
load_binary reports a load error (returns False) and leaves the PC,
the registers, the cycle counter, and both flags unchanged, and
leaves every memory byte from index min(len, capacity) on unchanged
— but the first min(len, capacity) bytes of the memory image have
already been overwritten with the input when the failure is
reported: the load is not atomic. -/
theorem c2_load_short (data : List Nat) (s : MipsCore) (h : data.length < 12) :
    (load_binary data s).1 = false ∧
    (load_binary data s).2.pc = s.pc ∧
    (load_binary data s).2.regs = s.regs ∧
    (load_binary data s).2.cycles = s.cycles ∧
    (load_binary data s).2.running = s.running ∧
    (load_binary data s).2.paused = s.paused ∧
    (∀ i, min data.length memSize ≤ i → (load_binary data s).2.memory i = s.memory i) ∧
    (∀ i, i < min data.length memSize → (load_binary data s).2.memory i = data.getD i 0) := by
  have h12 : ¬ 12 ≤ data.length := by omega
  unfold load_binary
  rw [if_neg h12]
  refine ⟨rfl, rfl, rfl, rfl, rfl, rfl, fun i hi => ?_, fun i hi => ?_⟩
  · show (if i < min data.length memSize then data.getD i 0 else s.memory i) = s.memory i
    rw [if_neg (Nat.not_lt.mpr hi)]
  · show (if i < min data.length memSize then data.getD i 0 else s.memory i) = data.getD i 0
    rw [if_pos hi]

/-- Claim C2 amended witness on the 4-byte input from the fresh
core. -/
theorem c2_load_short_witness :
    (load_binary [1, 2, 3, 4] initCore).1 = false ∧
    (load_binary [1, 2, 3, 4] initCore).2.pc = initCore.pc ∧
    (load_binary [1, 2, 3, 4] initCore).2.regs = initCore.regs ∧
    (load_binary [1, 2, 3, 4] initCore).2.cycles = initCore.cycles ∧
    (load_binary [1, 2, 3, 4] initCore).2.running = initCore.running ∧
    (load_binary [1, 2, 3, 4] initCore).2.paused = initCore.paused ∧
    (∀ i, min (List.length [1, 2, 3, 4]) memSize ≤ i →
      (load_binary [1, 2, 3, 4] initCore).2.memory i = initCore.memory i) ∧
    (∀ i, i < min (List.length [1, 2, 3, 4]) memSize →
      (load_binary [1, 2, 3, 4] initCore).2.memory i = List.getD [1, 2, 3, 4] i 0) :=
  c2_load_short [1, 2, 3, 4] initCore (by decide)
